import Mathlib

/-!
Verification of the hybrid biomedical entity-linking core in
`src/flair/models/biomedical_entity_linking.py`.

Strings are modelled as `List Char` (ASCII fragment of Python `str`), scores
as `ℚ`, fallible Python code as `Except PyError`.  Every definition is a
shallow embedding of the corresponding Python function; where a definition
instead follows the specification's words (because the code it embeds lives
behind an external-collaborator boundary), its doc comment says so.
-/

namespace BioNel

/-- Python errors that the modelled code can raise. -/
inductive PyError : Type where
  | attributeError (missingAttr : String)
  | fileNotFoundError
deriving DecidableEq, Repr

/-! ### Character predicates (ASCII model of Python `str` operations) -/

/-- ASCII model of the character class matched by Python regex class `\s`:
space (32) and the control characters 9-13 (tab, newline, vertical tab,
form feed, carriage return).  Python `str.strip()` strips the same set. -/
def pyIsSpace (c : Char) : Bool :=
  c.toNat = 32 || (9 ≤ c.toNat && c.toNat ≤ 13)

/-- Membership in Python `string.punctuation`, the default value of the
`punctuation_symbols` parameter of `BasicBioNelPreprocessor.__init__`
(line 165).  `string.punctuation` is exactly the ASCII ranges
33-47, 58-64, 91-96 and 123-126. -/
def isPunctSym (c : Char) : Bool :=
  (33 ≤ c.toNat && c.toNat ≤ 47) || (58 ≤ c.toNat && c.toNat ≤ 64) ||
  (91 ≤ c.toNat && c.toNat ≤ 96) || (123 ≤ c.toNat && c.toNat ≤ 126)

/-- A character matched by the compiled pattern
`rmv_puncts_regex = re.compile(r"[\s{P}]+".format(...))` (line 177):
whitespace or a punctuation symbol. -/
def isSepChar (c : Char) : Bool :=
  pyIsSpace c || isPunctSym c

/-- ASCII model of Python `str.lower()`, per character: the uppercase
letters 65-90 map to 97-122, everything else is unchanged. -/
def pyCharLower (c : Char) : Char :=
  if 65 ≤ c.toNat ∧ c.toNat ≤ 90 then Char.ofNat (c.toNat + 32) else c

/-- Python `str.lower()` on a whole string. -/
def pyLower (l : List Char) : List Char :=
  l.map pyCharLower

/-- Drop leading whitespace (first half of Python `str.strip()`). -/
def stripLeadWS (l : List Char) : List Char :=
  l.dropWhile pyIsSpace

/-- Drop trailing whitespace (second half of Python `str.strip()`). -/
def stripTrailWS (l : List Char) : List Char :=
  (l.reverse.dropWhile pyIsSpace).reverse

/-- Python `str.strip()` (no argument): remove leading and trailing
whitespace. -/
def pyStrip (l : List Char) : List Char :=
  stripTrailWS (stripLeadWS l)

/-! ### `re.split` on a one-or-more character class

`re.split(r"[class]+", s)` splits `s` at every maximal nonempty run of
characters of the class; a run at the start or at the end of the string
contributes an empty part there.  `reSplit sep` embeds this for the class
of characters satisfying `sep`. -/

/-- Split at maximal runs of characters satisfying `sep`
(the behaviour of `re.split` with pattern `[sep]+`). -/
def reSplit (sep : Char → Bool) : List Char → List (List Char)
  | [] => [[]]
  | c :: cs =>
    let r := reSplit sep cs
    if sep c then
      match cs with
      | [] => [] :: r
      | d :: _ => if sep d then r else [] :: r
    else
      match r with
      | [] => [[c]]
      | p :: ps => (c :: p) :: ps

/-- `" ".join(parts)`. -/
def joinSpace (parts : List (List Char)) : List Char :=
  List.intercalate [' '] parts

/-- Configuration of `BasicBioNelPreprocessor` (the `lowercase` and
`remove_punctuation` options; `punctuation_symbols` is left at its default
`string.punctuation`). -/
structure BasicConfig : Type where
  lowercase : Bool
  removePunctuation : Bool
deriving DecidableEq, Repr

/-- `BasicBioNelPreprocessor.process_entry` (lines 182-190):
optionally lowercase; optionally split on the whitespace-or-punctuation
regex, rejoin with single spaces and strip; finally strip. -/
def basicProcessEntry (cfg : BasicConfig) (entityName : List Char) : List Char :=
  let n1 := if cfg.lowercase then pyLower entityName else entityName
  let n2 := if cfg.removePunctuation then pyStrip (joinSpace (reSplit isSepChar n1)) else n1
  pyStrip n2

example : basicProcessEntry ⟨true, true⟩ "  Atrial Fibrillation (AF)! ".data =
    "atrial fibrillation af".data := by decide

example : basicProcessEntry ⟨true, true⟩ "RSV".data = "rsv".data := by decide

/-! ### Character-level lemmas -/

theorem toNat_ofNat_small {n : Nat} (h : n < 55296) : (Char.ofNat n).toNat = n := by
  unfold Char.ofNat
  split
  · rfl
  · exact absurd (Or.inl h) (by assumption)

theorem pyCharLower_toNat (c : Char) :
    (pyCharLower c).toNat =
      if 65 ≤ c.toNat ∧ c.toNat ≤ 90 then c.toNat + 32 else c.toNat := by
  unfold pyCharLower
  split
  · next h => exact toNat_ofNat_small (by omega)
  · rfl

theorem pyCharLower_eq_self (c : Char) (h : ¬(65 ≤ c.toNat ∧ c.toNat ≤ 90)) :
    pyCharLower c = c := by
  unfold pyCharLower
  exact if_neg h

theorem pyCharLower_idem (c : Char) : pyCharLower (pyCharLower c) = pyCharLower c := by
  by_cases h : 65 ≤ c.toNat ∧ c.toNat ≤ 90
  · apply pyCharLower_eq_self
    rw [pyCharLower_toNat, if_pos h]
    omega
  · rw [pyCharLower_eq_self c h]
    exact pyCharLower_eq_self c h

theorem pyIsSpace_lower (c : Char) : pyIsSpace (pyCharLower c) = pyIsSpace c := by
  unfold pyIsSpace
  rw [pyCharLower_toNat]
  split
  · next h =>
    apply Bool.eq_iff_iff.mpr
    simp only [Bool.or_eq_true, Bool.and_eq_true, decide_eq_true_eq]
    omega
  · rfl

theorem isSepChar_lower (c : Char) : isSepChar (pyCharLower c) = isSepChar c := by
  unfold isSepChar
  rw [pyIsSpace_lower]
  congr 1
  unfold isPunctSym
  rw [pyCharLower_toNat]
  split
  · next h =>
    apply Bool.eq_iff_iff.mpr
    simp only [Bool.or_eq_true, Bool.and_eq_true, decide_eq_true_eq]
    omega
  · rfl

theorem pyCharLower_space : pyCharLower ' ' = ' ' := by decide

theorem pyLower_idem (l : List Char) : pyLower (pyLower l) = pyLower l := by
  unfold pyLower
  rw [List.map_map]
  apply List.map_congr_left
  intro c _
  exact pyCharLower_idem c

/-! ### Strip lemmas -/

theorem dropWhile_all_false {α : Type} (p : α → Bool) (l : List α)
    (h : ∀ a ∈ l, p a = false) : l.dropWhile p = l := by
  cases l with
  | nil => rfl
  | cons a t =>
    rw [List.dropWhile_cons, if_neg]
    simp [h a (List.mem_cons_self a t)]

theorem stripLeadWS_no_ws (l : List Char) (h : ∀ c ∈ l, pyIsSpace c = false) :
    stripLeadWS l = l :=
  dropWhile_all_false pyIsSpace l h

theorem stripTrailWS_no_ws (l : List Char) (h : ∀ c ∈ l, pyIsSpace c = false) :
    stripTrailWS l = l := by
  unfold stripTrailWS
  rw [dropWhile_all_false pyIsSpace l.reverse (fun c hc => h c (List.mem_reverse.mp hc)),
    List.reverse_reverse]

theorem pyStrip_no_ws (l : List Char) (h : ∀ c ∈ l, pyIsSpace c = false) :
    pyStrip l = l := by
  unfold pyStrip
  rw [stripLeadWS_no_ws l h, stripTrailWS_no_ws l h]

theorem stripLeadWS_cons_ws (c : Char) (l : List Char) (h : pyIsSpace c = true) :
    stripLeadWS (c :: l) = stripLeadWS l := by
  unfold stripLeadWS
  rw [List.dropWhile_cons, if_pos h]

theorem pyStrip_cons_ws (c : Char) (l : List Char) (h : pyIsSpace c = true) :
    pyStrip (c :: l) = pyStrip l := by
  unfold pyStrip
  rw [stripLeadWS_cons_ws c l h]

theorem stripTrailWS_append (a b : List Char) (h : stripTrailWS b ≠ []) :
    stripTrailWS (a ++ b) = a ++ stripTrailWS b := by
  unfold stripTrailWS at *
  rw [List.reverse_append, List.dropWhile_append]
  have hb : ¬(b.reverse.dropWhile pyIsSpace).isEmpty = true := by
    intro he
    exact h (by rw [List.isEmpty_iff.mp he]; rfl)
  rw [if_neg hb, List.reverse_append, List.reverse_reverse]

theorem stripTrailWS_prefix_self (l : List Char) : stripTrailWS l <+: l := by
  unfold stripTrailWS
  obtain ⟨t, ht⟩ := List.dropWhile_suffix (l := l.reverse) pyIsSpace
  exact ⟨t.reverse, by rw [← List.reverse_append, ht, List.reverse_reverse]⟩

theorem stripTrailWS_idem (l : List Char) : stripTrailWS (stripTrailWS l) = stripTrailWS l := by
  unfold stripTrailWS
  rw [List.reverse_reverse, List.dropWhile_idempotent]

theorem stripLeadWS_of_stripTrailWS (l : List Char) (h : stripLeadWS l = l) :
    stripLeadWS (stripTrailWS l) = stripTrailWS l := by
  cases hx : stripTrailWS l with
  | nil => rfl
  | cons c t =>
    have hpre : (c :: t) <+: l := hx ▸ stripTrailWS_prefix_self l
    obtain ⟨r, hr⟩ := hpre
    have hc : pyIsSpace c = false := by
      by_contra hcc
      have hcc' : pyIsSpace c = true := by
        cases hcv : pyIsSpace c
        · exact absurd hcv hcc
        · rfl
      have : stripLeadWS l = stripLeadWS (t ++ r) := by
        rw [← hr, List.cons_append, stripLeadWS_cons_ws _ _ hcc']
      rw [h] at this
      have hlen : l.length ≤ (t ++ r).length := by
        calc l.length = (stripLeadWS (t ++ r)).length := by rw [← this]
        _ ≤ (t ++ r).length := (List.dropWhile_sublist _).length_le
      rw [← hr] at hlen
      simp at hlen
    unfold stripLeadWS
    rw [List.dropWhile_cons, if_neg (by simp [hc])]

theorem pyStrip_idem (l : List Char) : pyStrip (pyStrip l) = pyStrip l := by
  unfold pyStrip
  have h1 : stripLeadWS (stripLeadWS l) = stripLeadWS l := List.dropWhile_idempotent _ _
  rw [stripLeadWS_of_stripTrailWS (stripLeadWS l) h1, stripTrailWS_idem]

theorem pyIsSpace_comp_lower : (pyIsSpace ∘ pyCharLower) = pyIsSpace :=
  funext pyIsSpace_lower

theorem stripLeadWS_lower (l : List Char) :
    stripLeadWS (pyLower l) = pyLower (stripLeadWS l) := by
  unfold stripLeadWS pyLower
  rw [List.dropWhile_map, pyIsSpace_comp_lower]

theorem stripTrailWS_lower (l : List Char) :
    stripTrailWS (pyLower l) = pyLower (stripTrailWS l) := by
  unfold stripTrailWS pyLower
  rw [← List.map_reverse, List.dropWhile_map, pyIsSpace_comp_lower, ← List.map_reverse]

theorem pyStrip_lower (l : List Char) : pyStrip (pyLower l) = pyLower (pyStrip l) := by
  unfold pyStrip
  rw [stripLeadWS_lower, stripTrailWS_lower]

theorem stripLeadWS_cons_no_ws {c : Char} (t : List Char) (h : pyIsSpace c = false) :
    stripLeadWS (c :: t) = c :: t := by
  unfold stripLeadWS
  rw [List.dropWhile_cons, if_neg (by simp [h])]

theorem stripTrailWS_append_ws {sp : Char} (x : List Char) (h : pyIsSpace sp = true) :
    stripTrailWS (x ++ [sp]) = stripTrailWS x := by
  unfold stripTrailWS
  rw [List.reverse_append]
  simp only [List.reverse_singleton, List.singleton_append]
  rw [List.dropWhile_cons, if_pos h]

theorem stripTrailWS_cons (a : Char) (x : List Char) (h : stripTrailWS x ≠ []) :
    stripTrailWS (a :: x) = a :: stripTrailWS x := by
  have := stripTrailWS_append [a] x h
  simpa using this

/-! ### `reSplit` equations and structural lemmas -/

theorem reSplit_nil (sep : Char → Bool) : reSplit sep [] = [[]] := rfl

theorem reSplit_sep_last {sep : Char → Bool} {c : Char} (h : sep c = true) :
    reSplit sep [c] = [[], []] := by
  simp [reSplit, h]

theorem reSplit_sep_sep {sep : Char → Bool} {c d : Char} (ds : List Char)
    (h : sep c = true) (hd : sep d = true) :
    reSplit sep (c :: d :: ds) = reSplit sep (d :: ds) := by
  simp [reSplit, h, hd]

theorem reSplit_sep_nosep {sep : Char → Bool} {c d : Char} (ds : List Char)
    (h : sep c = true) (hd : sep d = false) :
    reSplit sep (c :: d :: ds) = [] :: reSplit sep (d :: ds) := by
  simp [reSplit, h, hd]

theorem reSplit_cons_nosep {sep : Char → Bool} {c : Char} {cs p : List Char}
    {ps : List (List Char)} (h : sep c = false) (hr : reSplit sep cs = p :: ps) :
    reSplit sep (c :: cs) = (c :: p) :: ps := by
  simp [reSplit, h, hr]

theorem reSplit_ne_nil (sep : Char → Bool) (l : List Char) : reSplit sep l ≠ [] := by
  induction l with
  | nil => simp [reSplit]
  | cons c cs ih =>
    cases hc : sep c with
    | true =>
      cases cs with
      | nil => rw [reSplit_sep_last hc]; simp
      | cons d ds =>
        cases hd : sep d with
        | true => rw [reSplit_sep_sep ds hc hd]; exact ih
        | false => rw [reSplit_sep_nosep ds hc hd]; simp
    | false =>
      cases hr : reSplit sep cs with
      | nil => exact absurd hr ih
      | cons p ps => rw [reSplit_cons_nosep hc hr]; simp

theorem reSplit_nosep_head {sep : Char → Bool} {c : Char} (cs : List Char)
    (h : sep c = false) :
    ∃ p ps, reSplit sep (c :: cs) = (c :: p) :: ps ∧ reSplit sep cs = p :: ps := by
  cases hr : reSplit sep cs with
  | nil => exact absurd hr (reSplit_ne_nil sep cs)
  | cons p ps => exact ⟨p, ps, reSplit_cons_nosep h hr, rfl⟩

theorem reSplit_sep_cons {sep : Char → Bool} {c : Char} (cs : List Char)
    (h : sep c = true) :
    reSplit sep (c :: cs) = [] :: reSplit sep (cs.dropWhile sep) := by
  induction cs generalizing c with
  | nil => rw [reSplit_sep_last h]; rfl
  | cons d ds ih =>
    cases hd : sep d with
    | true =>
      rw [reSplit_sep_sep ds h hd, ih hd, List.dropWhile_cons, if_pos hd]
    | false =>
      rw [reSplit_sep_nosep ds h hd, List.dropWhile_cons, if_neg (by simp [hd])]

theorem reSplit_all_nosep {sep : Char → Bool} (l : List Char)
    (h : ∀ x ∈ l, sep x = false) : reSplit sep l = [l] := by
  induction l with
  | nil => rfl
  | cons c cs ih =>
    have hr := ih (fun x hx => h x (List.mem_cons_of_mem c hx))
    exact reSplit_cons_nosep (h c (List.mem_cons_self c cs)) hr

theorem reSplit_word_append {sep : Char → Bool} {w : List Char} {d : Char}
    (m : List Char) (hw : ∀ x ∈ w, sep x = false) (hne : w ≠ []) (hd : sep d = true) :
    reSplit sep (w ++ d :: m) = w :: reSplit sep (m.dropWhile sep) := by
  induction w with
  | nil => exact absurd rfl hne
  | cons a w' ih =>
    have ha : sep a = false := hw a (List.mem_cons_self a w')
    cases w' with
    | nil =>
      have h2 := reSplit_sep_cons m hd
      simpa using reSplit_cons_nosep ha h2
    | cons b w'' =>
      have h2 := ih (fun x hx => hw x (List.mem_cons_of_mem a hx)) (by simp)
      simpa using reSplit_cons_nosep ha h2

theorem sep_false_of_mem_reSplit {sep : Char → Bool} {l p : List Char} {x : Char}
    (hp : p ∈ reSplit sep l) (hx : x ∈ p) : sep x = false := by
  induction l generalizing p with
  | nil =>
    rw [reSplit_nil] at hp
    rw [List.mem_singleton.mp hp] at hx
    exact absurd hx (List.not_mem_nil x)
  | cons c cs ih =>
    cases hc : sep c with
    | true =>
      cases cs with
      | nil =>
        rw [reSplit_sep_last hc] at hp
        rcases List.mem_cons.mp hp with he | hp' <;>
          [skip; rcases List.mem_cons.mp hp' with he | habs]
        · rw [he] at hx; exact absurd hx (List.not_mem_nil x)
        · rw [he] at hx; exact absurd hx (List.not_mem_nil x)
        · exact absurd habs (List.not_mem_nil p)
      | cons d ds =>
        cases hd : sep d with
        | true =>
          rw [reSplit_sep_sep ds hc hd] at hp
          exact ih hp hx
        | false =>
          rw [reSplit_sep_nosep ds hc hd] at hp
          rcases List.mem_cons.mp hp with he | hp'
          · rw [he] at hx; exact absurd hx (List.not_mem_nil x)
          · exact ih hp' hx
    | false =>
      obtain ⟨q, qs, h1, h2⟩ := reSplit_nosep_head cs hc
      rw [h1] at hp
      rcases List.mem_cons.mp hp with he | hp'
      · rw [he] at hx
        rcases List.mem_cons.mp hx with hxc | hxq
        · rw [hxc]; exact hc
        · exact ih (by rw [h2]; exact List.mem_cons_self q qs) hxq
      · exact ih (by rw [h2]; exact List.mem_cons_of_mem q hp') hx

/-! ### `joinSpace` lemmas -/

theorem intercalate_single {α : Type} (s : List α) (a : List α) :
    List.intercalate s [a] = a := by
  simp [List.intercalate, List.intersperse]

theorem intercalate_cons {α : Type} (s a : List α) (r : List (List α)) (h : r ≠ []) :
    List.intercalate s (a :: r) = a ++ s ++ List.intercalate s r := by
  cases r with
  | nil => exact absurd rfl h
  | cons b t =>
    simp [List.intercalate, List.intersperse, List.append_assoc]

theorem joinSpace_nil : joinSpace [] = [] := rfl

theorem joinSpace_single (a : List Char) : joinSpace [a] = a :=
  intercalate_single [' '] a

theorem joinSpace_cons (a : List Char) (r : List (List Char)) (h : r ≠ []) :
    joinSpace (a :: r) = a ++ [' '] ++ joinSpace r :=
  intercalate_cons [' '] a r h

theorem pyLower_append (a b : List Char) :
    pyLower (a ++ b) = pyLower a ++ pyLower b := by
  unfold pyLower
  exact List.map_append pyCharLower a b

theorem pyLower_joinSpace (ws : List (List Char)) :
    pyLower (joinSpace ws) = joinSpace (ws.map pyLower) := by
  induction ws with
  | nil => rfl
  | cons a r ih =>
    cases r with
    | nil => rw [joinSpace_single, List.map_singleton, joinSpace_single]
    | cons b t =>
      rw [joinSpace_cons a (b :: t) (by simp), List.map_cons,
        joinSpace_cons (pyLower a) ((b :: t).map pyLower) (by simp),
        pyLower_append, pyLower_append, ← ih]
      simp [pyLower, pyCharLower_space]

/-! ### The split-join-strip normalisation -/

/-- The non-empty parts of `reSplit sep l`: characterisation (proved below)
of what `" ".join(re.split(...)).strip()` produces. -/
def normalizeWords (sep : Char → Bool) (l : List Char) : List (List Char) :=
  (reSplit sep l).filter (fun p => !p.isEmpty)

theorem dropWhile_head_false {α : Type} {p : α → Bool} {l m : List α} {d : α}
    (h : l.dropWhile p = d :: m) : p d = false := by
  induction l with
  | nil => exact absurd h (by simp)
  | cons a t ih =>
    rw [List.dropWhile_cons] at h
    by_cases hp : p a = true
    · rw [if_pos hp] at h
      exact ih h
    · rw [if_neg hp] at h
      cases h
      simpa using hp

theorem pyStrip_joinSpace_reSplit (sep : Char → Bool)
    (hws : ∀ c, pyIsSpace c = true → sep c = true) (l : List Char) :
    pyStrip (joinSpace (reSplit sep l)) = joinSpace (normalizeWords sep l) := by
  have hnw : ∀ x : Char, sep x = false → pyIsSpace x = false := by
    intro x hx
    cases hpw : pyIsSpace x
    · rfl
    · rw [hws x hpw] at hx; exact absurd hx (by simp)
  suffices hgen : ∀ n (l : List Char), l.length = n →
      pyStrip (joinSpace (reSplit sep l)) = joinSpace (normalizeWords sep l) by
    exact hgen l.length l rfl
  intro n
  induction n using Nat.strong_induction_on with
  | _ n ih =>
  intro l hn
  cases l with
  | nil =>
    rw [reSplit_nil]
    unfold normalizeWords
    rw [reSplit_nil]
    simp [joinSpace, List.intercalate, List.intersperse, pyStrip, stripLeadWS, stripTrailWS]
  | cons c cs =>
    subst hn
    cases hc : sep c with
    | true =>
      rw [reSplit_sep_cons cs hc]
      unfold normalizeWords
      rw [reSplit_sep_cons cs hc]
      have hm : (cs.dropWhile sep).length < (c :: cs).length :=
        Nat.lt_of_le_of_lt (List.dropWhile_sublist sep (l := cs)).length_le (by simp)
      have hrne := reSplit_ne_nil sep (cs.dropWhile sep)
      rw [joinSpace_cons [] _ hrne]
      simp only [List.nil_append, List.singleton_append]
      rw [pyStrip_cons_ws ' ' _ (by decide), List.filter_cons]
      simp only [List.isEmpty_nil, Bool.not_true, Bool.false_eq_true, if_neg]
      exact ih _ hm (cs.dropWhile sep) rfl
    | false =>
      have hcw : pyIsSpace c = false := hnw c hc
      -- decompose c :: cs into its leading non-separator word and the rest
      have hsplit := List.takeWhile_append_dropWhile (fun x => !sep x) (c :: cs)
      have hwtake : (c :: cs).takeWhile (fun x => !sep x)
          = c :: cs.takeWhile (fun x => !sep x) := by
        rw [List.takeWhile_cons, if_pos (by simp [hc])]
      have hw : ∀ x ∈ (c :: cs).takeWhile (fun x => !sep x), sep x = false := by
        intro x hx
        have := List.mem_takeWhile_imp hx
        simpa using this
      cases hrest : (c :: cs).dropWhile (fun x => !sep x) with
      | nil =>
        have hall : ∀ x ∈ c :: cs, sep x = false := by
          intro x hx
          apply hw
          rw [← hsplit, hrest, List.append_nil] at hx
          exact hx
        rw [reSplit_all_nosep _ hall]
        unfold normalizeWords
        rw [reSplit_all_nosep _ hall]
        rw [joinSpace_single]
        rw [List.filter_cons]
        simp only [List.isEmpty_cons, Bool.not_false, if_pos]
        rw [List.filter_nil, joinSpace_single]
        exact pyStrip_no_ws _ (fun x hx => hnw x (hall x hx))
      | cons d m' =>
        have hd : sep d = true := by
          have hh := dropWhile_head_false hrest
          simpa using hh
        have hlw : c :: cs = (c :: cs).takeWhile (fun x => !sep x) ++ d :: m' := by
          rw [← hrest, hsplit]
        have hwne : (c :: cs).takeWhile (fun x => !sep x) ≠ [] := by
          rw [hwtake]; simp
        have hre : reSplit sep (c :: cs)
            = (c :: cs).takeWhile (fun x => !sep x) :: reSplit sep (m'.dropWhile sep) := by
          conv_lhs => rw [hlw]
          exact reSplit_word_append m' hw hwne hd
        rw [hre]
        unfold normalizeWords
        rw [hre]
        -- bound the length of the remaining input
        have hmlen : (m'.dropWhile sep).length < (c :: cs).length := by
          have h1 : (m'.dropWhile sep).length ≤ m'.length :=
            (List.dropWhile_sublist sep (l := m')).length_le
          have h2 : (c :: cs).length = ((c :: cs).takeWhile (fun x => !sep x) ++ d :: m').length := by
            rw [← hlw]
          rw [h2, List.length_append]
          simp only [List.length_cons]
          omega
        have hwnowsAll : ∀ x ∈ (c :: cs).takeWhile (fun x => !sep x), pyIsSpace x = false :=
          fun x hx => hnw x (hw x hx)
        cases hm : m'.dropWhile sep with
        | nil =>
          rw [reSplit_nil]
          rw [joinSpace_cons _ [[]] (by simp)]
          have hj : joinSpace [([] : List Char)] = [] := joinSpace_single []
          rw [hj, List.append_nil]
          rw [List.filter_cons, if_pos (by simp [hwne])]
          rw [List.filter_cons, if_neg (by simp)]
          rw [List.filter_nil, joinSpace_single]
          -- pyStrip (w ++ [' ']) = w
          rw [hwtake]
          have hLead := stripLeadWS_cons_no_ws
            (cs.takeWhile (fun x => !sep x) ++ [' ']) hcw
          unfold pyStrip
          rw [List.cons_append, hLead, ← List.cons_append]
          rw [stripTrailWS_append_ws _ (by decide)]
          exact stripTrailWS_no_ws _ (by rw [← hwtake]; exact hwnowsAll)
        | cons e m'' =>
          have he : sep e = false := by
            have hh := dropWhile_head_false hm
            simpa using hh
          obtain ⟨p, ps, hps, _⟩ := reSplit_nosep_head m'' he
          rw [← hm] at hps
          have hyne := reSplit_ne_nil sep (m'.dropWhile sep)
          rw [← hm]
          rw [joinSpace_cons _ _ hyne]
          -- the tail join starts with the non-whitespace character e
          have hystruct : ∃ y', joinSpace (reSplit sep (m'.dropWhile sep)) = e :: y' := by
            rw [hps]
            cases ps with
            | nil => exact ⟨p, joinSpace_single (e :: p)⟩
            | cons q qs =>
              refine ⟨p ++ [' '] ++ joinSpace (q :: qs), ?_⟩
              rw [joinSpace_cons _ _ (by simp), List.cons_append, List.cons_append]
          obtain ⟨y', hy⟩ := hystruct
          have hih := ih _ hmlen (m'.dropWhile sep) rfl
          -- rewrite pyStrip of the tail using the head-of-word structure
          have hew : pyIsSpace e = false := hnw e he
          have hpyy : pyStrip (joinSpace (reSplit sep (m'.dropWhile sep)))
              = stripTrailWS (joinSpace (reSplit sep (m'.dropWhile sep))) := by
            unfold pyStrip
            rw [hy, stripLeadWS_cons_no_ws y' hew]
          -- the normalised tail is non-empty, so its join is non-empty
          have hnwtail : normalizeWords sep (m'.dropWhile sep) = (e :: p) :: ps.filter (fun q => !q.isEmpty) := by
            unfold normalizeWords
            rw [hps, List.filter_cons]
            simp
          have hzne : joinSpace (normalizeWords sep (m'.dropWhile sep)) ≠ [] := by
            rw [hnwtail]
            cases hq : ps.filter (fun q => !q.isEmpty) with
            | nil => rw [joinSpace_single]; simp
            | cons q qs => rw [joinSpace_cons _ _ (by simp)]; simp
          have hstz : stripTrailWS (joinSpace (reSplit sep (m'.dropWhile sep)))
              = joinSpace (normalizeWords sep (m'.dropWhile sep)) := by
            rw [← hpyy, hih]
          -- assemble the left side
          unfold pyStrip
          rw [hwtake, List.cons_append, List.cons_append,
            stripLeadWS_cons_no_ws _ hcw, ← List.cons_append, ← List.cons_append,
            ← hwtake, List.append_assoc]
          rw [stripTrailWS_append _ _ (by
            rw [List.singleton_append, stripTrailWS_cons ' ' _ (by rw [hstz]; exact hzne)]
            simp)]
          rw [List.singleton_append, stripTrailWS_cons ' ' _ (by rw [hstz]; exact hzne), hstz]
          -- assemble the right side
          rw [List.filter_cons, if_pos (by simp [hwne])]
          have : ((reSplit sep (m'.dropWhile sep)).filter (fun p => !p.isEmpty)) =
              normalizeWords sep (m'.dropWhile sep) := rfl
          rw [this, joinSpace_cons _ _ (by rw [hnwtail]; simp), List.append_assoc,
            List.singleton_append]


theorem mem_of_mem_reSplit {sep : Char → Bool} {l p : List Char} {x : Char}
    (hp : p ∈ reSplit sep l) (hx : x ∈ p) : x ∈ l := by
  induction l generalizing p with
  | nil =>
    rw [reSplit_nil] at hp
    rw [List.mem_singleton.mp hp] at hx
    exact absurd hx (List.not_mem_nil x)
  | cons c cs ih =>
    cases hc : sep c with
    | true =>
      cases cs with
      | nil =>
        rw [reSplit_sep_last hc] at hp
        rcases List.mem_cons.mp hp with he | hp' <;>
          [skip; rcases List.mem_cons.mp hp' with he | habs]
        · rw [he] at hx; exact absurd hx (List.not_mem_nil x)
        · rw [he] at hx; exact absurd hx (List.not_mem_nil x)
        · exact absurd habs (List.not_mem_nil p)
      | cons d ds =>
        cases hd : sep d with
        | true =>
          rw [reSplit_sep_sep ds hc hd] at hp
          exact List.mem_cons_of_mem c (ih hp hx)
        | false =>
          rw [reSplit_sep_nosep ds hc hd] at hp
          rcases List.mem_cons.mp hp with he | hp'
          · rw [he] at hx; exact absurd hx (List.not_mem_nil x)
          · exact List.mem_cons_of_mem c (ih hp' hx)
    | false =>
      obtain ⟨q, qs, h1, h2⟩ := reSplit_nosep_head cs hc
      rw [h1] at hp
      rcases List.mem_cons.mp hp with he | hp'
      · rw [he] at hx
        rcases List.mem_cons.mp hx with hxc | hxq
        · rw [hxc]; exact List.mem_cons_self c cs
        · exact List.mem_cons_of_mem c
            (ih (by rw [h2]; exact List.mem_cons_self q qs) hxq)
      · exact List.mem_cons_of_mem c
          (ih (by rw [h2]; exact List.mem_cons_of_mem q hp') hx)

theorem reSplit_joinSpace {sep : Char → Bool} (hsp : sep ' ' = true)
    (ws : List (List Char)) (hne : ws ≠ [])
    (h1 : ∀ w ∈ ws, w ≠ []) (h2 : ∀ w ∈ ws, ∀ c ∈ w, sep c = false) :
    reSplit sep (joinSpace ws) = ws := by
  induction ws with
  | nil => exact absurd rfl hne
  | cons w rest ih =>
    cases rest with
    | nil =>
      rw [joinSpace_single]
      exact reSplit_all_nosep w (h2 w (List.mem_cons_self w []))
    | cons w2 rest' =>
      rw [joinSpace_cons _ _ (by simp), List.append_assoc, List.singleton_append]
      rw [reSplit_word_append _ (h2 w (List.mem_cons_self w _))
        (h1 w (List.mem_cons_self w _)) hsp]
      have hw2mem : w2 ∈ w :: w2 :: rest' := List.mem_cons_of_mem w (List.mem_cons_self w2 rest')
      obtain ⟨e, t, he⟩ : ∃ e t, w2 = e :: t := by
        cases hw2 : w2 with
        | nil => exact absurd hw2 (h1 w2 hw2mem)
        | cons e t => exact ⟨e, t, rfl⟩
      have hse : sep e = false :=
        h2 w2 hw2mem e (by rw [he]; exact List.mem_cons_self e t)
      have hhead : ∃ y', joinSpace (w2 :: rest') = e :: y' := by
        cases rest' with
        | nil => exact ⟨t, by rw [joinSpace_single, he]⟩
        | cons q qs =>
          refine ⟨t ++ [' '] ++ joinSpace (q :: qs), ?_⟩
          rw [joinSpace_cons _ _ (by simp), he, List.cons_append, List.cons_append]
      obtain ⟨y', hy⟩ := hhead
      have hdrop : (joinSpace (w2 :: rest')).dropWhile sep = joinSpace (w2 :: rest') := by
        rw [hy, List.dropWhile_cons, if_neg (by simp [hse])]
      rw [hdrop, ih (by simp)
        (fun v hv => h1 v (List.mem_cons_of_mem w hv))
        (fun v hv => h2 v (List.mem_cons_of_mem w hv))]

theorem normalizeWords_mem_ne_nil {sep : Char → Bool} {l w : List Char}
    (h : w ∈ normalizeWords sep l) : w ≠ [] := by
  unfold normalizeWords at h
  have := (List.mem_filter.mp h).2
  simp at this
  intro hw
  rw [hw] at this
  exact absurd this (by simp)

theorem normalizeWords_mem_sep_false {sep : Char → Bool} {l w : List Char} {c : Char}
    (h : w ∈ normalizeWords sep l) (hc : c ∈ w) : sep c = false := by
  unfold normalizeWords at h
  exact sep_false_of_mem_reSplit (List.mem_filter.mp h).1 hc

theorem normalizeWords_joinSpace {sep : Char → Bool} (hsp : sep ' ' = true)
    (l : List Char) :
    normalizeWords sep (joinSpace (normalizeWords sep l)) = normalizeWords sep l := by
  cases hws : normalizeWords sep l with
  | nil =>
    rw [joinSpace_nil]
    unfold normalizeWords
    rw [reSplit_nil, List.filter_cons, if_neg (by simp), List.filter_nil]
  | cons w rest =>
    rw [← hws]
    have hrt := reSplit_joinSpace hsp (normalizeWords sep l) (by rw [hws]; simp)
      (fun v hv => normalizeWords_mem_ne_nil hv)
      (fun v hv c hc => normalizeWords_mem_sep_false hv hc)
    calc normalizeWords sep (joinSpace (normalizeWords sep l))
        = (reSplit sep (joinSpace (normalizeWords sep l))).filter (fun p => !p.isEmpty) := rfl
      _ = (normalizeWords sep l).filter (fun p => !p.isEmpty) := by rw [hrt]
      _ = normalizeWords sep l := by
          apply List.filter_eq_self.mpr
          intro a ha
          have hane := normalizeWords_mem_ne_nil ha
          cases hae : a.isEmpty
          · rfl
          · exact absurd (List.isEmpty_iff.mp hae) hane

theorem isSepChar_of_ws : ∀ c, pyIsSpace c = true → isSepChar c = true := by
  intro c h
  unfold isSepChar
  rw [h]
  rfl

theorem isSepChar_space : isSepChar ' ' = true := by decide

theorem pyLower_fixed_of_mem_lower {l w : List Char}
    (h : ∀ c ∈ w, c ∈ pyLower l) : pyLower w = w := by
  unfold pyLower
  conv_rhs => rw [← List.map_id w]
  apply List.map_congr_left
  intro c hc
  obtain ⟨a, _, ha⟩ := List.mem_map.mp (h c hc)
  show pyCharLower c = c
  rw [← ha]
  exact pyCharLower_idem a

theorem pyLower_normalizeWords_lower (l : List Char) :
    pyLower (joinSpace (normalizeWords isSepChar (pyLower l)))
      = joinSpace (normalizeWords isSepChar (pyLower l)) := by
  rw [pyLower_joinSpace]
  congr 1
  conv_rhs => rw [← List.map_id (normalizeWords isSepChar (pyLower l))]
  apply List.map_congr_left
  intro w hw
  show pyLower w = w
  apply pyLower_fixed_of_mem_lower
  intro c hc
  unfold normalizeWords at hw
  exact mem_of_mem_reSplit (List.mem_filter.mp hw).1 hc


/-- C6: the Basic preprocessor's `process_entry` is idempotent: for every
string `x` and every configuration of the `lowercase` and
`remove_punctuation` options, `process_entry (process_entry x) = process_entry x`. -/
theorem C6_basicProcessEntry_idempotent (cfg : BasicConfig) (x : List Char) :
    basicProcessEntry cfg (basicProcessEntry cfg x) = basicProcessEntry cfg x := by
  have key : ∀ y : List Char, pyStrip (pyStrip (joinSpace (reSplit isSepChar y)))
      = joinSpace (normalizeWords isSepChar y) := fun y => by
    rw [pyStrip_idem, pyStrip_joinSpace_reSplit isSepChar isSepChar_of_ws y]
  obtain ⟨lc, rp⟩ := cfg
  cases lc <;> cases rp
  case false.false =>
    show pyStrip (pyStrip x) = pyStrip x
    exact pyStrip_idem x
  case false.true =>
    show pyStrip (pyStrip (joinSpace (reSplit isSepChar
        (pyStrip (pyStrip (joinSpace (reSplit isSepChar x)))))))
      = pyStrip (pyStrip (joinSpace (reSplit isSepChar x)))
    rw [key, key x, normalizeWords_joinSpace isSepChar_space]
  case true.false =>
    show pyStrip (pyLower (pyStrip (pyLower x))) = pyStrip (pyLower x)
    rw [pyStrip_lower x, pyLower_idem (pyStrip x), pyStrip_lower (pyStrip x), pyStrip_idem x]
  case true.true =>
    show pyStrip (pyStrip (joinSpace (reSplit isSepChar (pyLower
        (pyStrip (pyStrip (joinSpace (reSplit isSepChar (pyLower x)))))))))
      = pyStrip (pyStrip (joinSpace (reSplit isSepChar (pyLower x))))
    rw [key (pyLower x), pyLower_normalizeWords_lower x,
      key (joinSpace (normalizeWords isSepChar (pyLower x))),
      normalizeWords_joinSpace isSepChar_space (pyLower x)]


/-! ### Python `str.split(sep)` for a one-character separator -/

/-- Python `str.split(sep)` with a one-character separator: split at every
occurrence; adjacent separators and separators at the ends contribute empty
parts (so `"a||b".split("|") == ["a", "", "b"]`). -/
def splitOnSep (sep : Char) : List Char → List (List Char)
  | [] => [[]]
  | c :: cs =>
    if c = sep then [] :: splitOnSep sep cs
    else
      match splitOnSep sep cs with
      | [] => [[c]]
      | p :: ps => (c :: p) :: ps

theorem splitOnSep_ne_nil (sep : Char) (l : List Char) : splitOnSep sep l ≠ [] := by
  cases l with
  | nil => simp [splitOnSep]
  | cons c cs =>
    unfold splitOnSep
    by_cases hc : c = sep
    · rw [if_pos hc]; simp
    · rw [if_neg hc]
      cases splitOnSep sep cs <;> simp

theorem splitOnSep_cons_sep {sep c : Char} (cs : List Char) (h : c = sep) :
    splitOnSep sep (c :: cs) = [] :: splitOnSep sep cs := by
  unfold splitOnSep
  rw [if_pos h]
  cases cs <;> rfl

theorem splitOnSep_cons_nosep {sep c : Char} {cs p : List Char} {ps : List (List Char)}
    (h : ¬c = sep) (hr : splitOnSep sep cs = p :: ps) :
    splitOnSep sep (c :: cs) = (c :: p) :: ps := by
  unfold splitOnSep
  rw [if_neg h, hr]

theorem splitOnSep_nosep_head {sep c : Char} (cs : List Char) (h : ¬c = sep) :
    ∃ p ps, splitOnSep sep (c :: cs) = (c :: p) :: ps ∧ splitOnSep sep cs = p :: ps := by
  cases hr : splitOnSep sep cs with
  | nil => exact absurd hr (splitOnSep_ne_nil sep cs)
  | cons p ps => exact ⟨p, ps, splitOnSep_cons_nosep h hr, rfl⟩

/-- Joining a split with its separator recovers the original string
(`sep.join(s.split(sep)) == s`). -/
theorem intercalate_splitOnSep (sep : Char) (l : List Char) :
    List.intercalate [sep] (splitOnSep sep l) = l := by
  induction l with
  | nil => rw [splitOnSep]; exact intercalate_single [sep] []
  | cons c cs ih =>
    by_cases hc : c = sep
    · rw [splitOnSep_cons_sep cs hc,
        intercalate_cons [sep] [] (splitOnSep sep cs) (splitOnSep_ne_nil sep cs), ih, hc]
      rfl
    · obtain ⟨p, ps, h1, h2⟩ := splitOnSep_nosep_head cs hc
      rw [h1]
      cases ps with
      | nil =>
        rw [intercalate_single]
        rw [h2, intercalate_single] at ih
        rw [ih]
      | cons q qs =>
        rw [intercalate_cons [sep] (c :: p) (q :: qs) (by simp)]
        rw [h2, intercalate_cons [sep] p (q :: qs) (by simp)] at ih
        rw [List.cons_append, List.cons_append, ih]

theorem not_mem_of_mem_splitOnSep {sep : Char} {l p : List Char}
    (hp : p ∈ splitOnSep sep l) : sep ∉ p := by
  induction l generalizing p with
  | nil =>
    rw [splitOnSep] at hp
    rw [List.mem_singleton.mp hp]
    exact List.not_mem_nil sep
  | cons c cs ih =>
    by_cases hc : c = sep
    · rw [splitOnSep_cons_sep cs hc] at hp
      rcases List.mem_cons.mp hp with he | hp'
      · rw [he]; exact List.not_mem_nil sep
      · exact ih hp'
    · obtain ⟨q, qs, h1, h2⟩ := splitOnSep_nosep_head cs hc
      rw [h1] at hp
      rcases List.mem_cons.mp hp with he | hp'
      · rw [he]
        intro hmem
        rcases List.mem_cons.mp hmem with hsc | hq
        · exact hc hsc.symm
        · exact ih (by rw [h2]; exact List.mem_cons_self q qs) hq
      · exact ih (by rw [h2]; exact List.mem_cons_of_mem q hp')

theorem splitOnSep_length_ge_two {sep : Char} {l : List Char} (h : sep ∈ l) :
    2 ≤ (splitOnSep sep l).length := by
  induction l with
  | nil => exact absurd h (List.not_mem_nil sep)
  | cons c cs ih =>
    by_cases hc : c = sep
    · rw [splitOnSep_cons_sep cs hc]
      have := splitOnSep_ne_nil sep cs
      cases hr : splitOnSep sep cs with
      | nil => exact absurd hr this
      | cons p ps => simp
    · have hmem : sep ∈ cs := by
        rcases List.mem_cons.mp h with he | hcs
        · exact absurd he.symm hc
        · exact hcs
      obtain ⟨p, ps, h1, h2⟩ := splitOnSep_nosep_head cs hc
      rw [h1]
      have := ih hmem
      rw [h2] at this
      simpa using this

theorem headD_mem {α : Type} {l : List α} (h : l ≠ []) (d : α) : l.headD d ∈ l := by
  cases l with
  | nil => exact absurd rfl h
  | cons a t => exact List.mem_cons_self a t

theorem getLastD_mem {α : Type} {l : List α} (h : l ≠ []) (d : α) : l.getLastD d ∈ l := by
  induction l generalizing d with
  | nil => exact absurd rfl h
  | cons a t ih =>
    cases t with
    | nil => simp [List.getLastD]
    | cons b u =>
      have := ih (d := a) (by simp)
      simp only [List.getLastD] at *
      exact List.mem_cons_of_mem a this

theorem intercalate_append_last {α : Type} (s x : List α) {xs : List (List α)}
    (h : xs ≠ []) :
    List.intercalate s (xs ++ [x]) = List.intercalate s xs ++ s ++ x := by
  induction xs with
  | nil => exact absurd rfl h
  | cons a t ih =>
    cases t with
    | nil =>
      rw [List.singleton_append, intercalate_cons s a [x] (by simp),
        intercalate_single, intercalate_single]
    | cons b u =>
      rw [List.cons_append, intercalate_cons s a ((b :: u) ++ [x]) (by simp),
        ih (by simp), intercalate_cons s a (b :: u) (by simp)]
      simp [List.append_assoc]


/-! ### Identifier parsing in `BiomedicalEntityLinker.predict` (lines 906-935) -/

/-- The fields attached to an `EntityLinkingLabel` that are computed from the
candidate's identifier string. -/
structure ParsedId : Type where
  cui : List Char
  additionalLabels : Option (List (List Char))
  database : Option (List Char)
deriving DecidableEq, Repr

/-- The database-extraction step (lines 918-923): if the primary identifier
contains a colon, the database is everything before the last colon
(`":".join(cui_parts[0:-1])`) and the cui becomes the last part; otherwise
there is no database. -/
def parseDatabase (cui : List Char) (additionalLabels : Option (List (List Char))) :
    ParsedId :=
  if ':' ∈ cui then
    { cui := (splitOnSep ':' cui).getLastD []
      additionalLabels := additionalLabels
      database := some (List.intercalate [':'] (splitOnSep ':' cui).dropLast) }
  else
    { cui := cui, additionalLabels := additionalLabels, database := none }

/-- The compound-identifier step (lines 909-915) followed by the database
step: if the identifier contains the separator, the primary identifier is
`labels[0]` and the additional labels are `labels[1:]`; otherwise there are
no additional labels. -/
def parsePredictId (identifier : List Char) : ParsedId :=
  if '|' ∈ identifier then
    parseDatabase ((splitOnSep '|' identifier).headD [])
      (some (splitOnSep '|' identifier).tail)
  else
    parseDatabase identifier none

/-- The label category built at line 889:
`input_entity_annotation_layer + "_nen"` when an entity type is given,
`"nen"` otherwise. -/
def nelLabelName : Option String → String
  | some t => t ++ "_nen"
  | none => "nen"

/-- Re-attach the database prefix (with its colon) to the local identifier:
recovers the primary identifier that entered the database-extraction step. -/
def parsedPrimary (r : ParsedId) : List Char :=
  match r.database with
  | some db => db ++ ':' :: r.cui
  | none => r.cui

theorem getLastD_eq_getLast_of_ne_nil {α : Type} {l : List α} (h : l ≠ []) (d : α) :
    l.getLastD d = l.getLast h := by
  induction l generalizing d with
  | nil => exact absurd rfl h
  | cons a t ih =>
    cases t with
    | nil => rfl
    | cons b u =>
      show (b :: u).getLastD a = (a :: b :: u).getLast (by simp)
      rw [ih (by simp) a]
      exact (List.getLast_cons (by simp)).symm

theorem parseDatabase_primary (cui : List Char) (add : Option (List (List Char))) :
    parsedPrimary (parseDatabase cui add) = cui
      ∧ ':' ∉ (parseDatabase cui add).cui
      ∧ (parseDatabase cui add).additionalLabels = add := by
  by_cases h : ':' ∈ cui
  · unfold parseDatabase
    rw [if_pos h]
    have hlen := splitOnSep_length_ge_two h
    have hne : splitOnSep ':' cui ≠ [] := splitOnSep_ne_nil ':' cui
    have hdlne : (splitOnSep ':' cui).dropLast ≠ [] := by
      intro hd
      have := List.length_dropLast (splitOnSep ':' cui)
      rw [hd] at this
      simp at this
      omega
    refine ⟨?_, ?_, rfl⟩
    · unfold parsedPrimary
      simp only
      have hsplit : (splitOnSep ':' cui).dropLast ++ [(splitOnSep ':' cui).getLastD []] =
          splitOnSep ':' cui := by
        cases hsp : splitOnSep ':' cui with
        | nil => exact absurd hsp hne
        | cons p ps =>
          have hgl := List.dropLast_append_getLast (l := p :: ps) (by simp)
          rw [getLastD_eq_getLast_of_ne_nil (by simp) []]
          exact hgl
      have hj := intercalate_append_last [':'] ((splitOnSep ':' cui).getLastD []) hdlne
      rw [hsplit] at hj
      calc List.intercalate [':'] (splitOnSep ':' cui).dropLast
              ++ ':' :: ((splitOnSep ':' cui).getLastD [])
          = List.intercalate [':'] (splitOnSep ':' cui).dropLast
              ++ [':'] ++ ((splitOnSep ':' cui).getLastD []) := by
            rw [List.append_assoc, List.singleton_append]
        _ = List.intercalate [':'] (splitOnSep ':' cui) := hj.symm
        _ = cui := intercalate_splitOnSep ':' cui
    · simp only
      exact not_mem_of_mem_splitOnSep (getLastD_mem hne [])
  · unfold parseDatabase
    rw [if_neg h]
    exact ⟨rfl, h, rfl⟩

/-- C3: for every returned candidate, `predict` splits the identifier on
the compound separator into a primary identifier plus additional
identifiers (none when the separator is absent), splits the primary
identifier on the last colon into a database prefix and the local
identifier, and builds the label category as the entity type suffixed with
the linking tag.  Concretely, the identifier MESH:D007239|D000068354 yields
primary identifier D007239, database MESH and one additional identifier
D000068354. -/
theorem C3_predict_identifier_parsing :
    (∀ identifier : List Char,
        List.intercalate ['|']
          (parsedPrimary (parsePredictId identifier)
            :: ((parsePredictId identifier).additionalLabels.getD [])) = identifier
      ∧ ((parsePredictId identifier).additionalLabels = none ↔ '|' ∉ identifier)
      ∧ ':' ∉ (parsePredictId identifier).cui
      ∧ '|' ∉ parsedPrimary (parsePredictId identifier)
      ∧ (∀ a ∈ (parsePredictId identifier).additionalLabels.getD [], '|' ∉ a))
    ∧ parsePredictId "MESH:D007239|D000068354".data
        = ⟨"D007239".data, some ["D000068354".data], some "MESH".data⟩
    ∧ nelLabelName (some "disease") = "disease_nen"
    ∧ nelLabelName none = "nen" := by
  refine ⟨?_, by decide, rfl, rfl⟩
  intro identifier
  by_cases h1 : '|' ∈ identifier
  · have hpp : parsePredictId identifier
        = parseDatabase ((splitOnSep '|' identifier).headD [])
            (some (splitOnSep '|' identifier).tail) := by
      unfold parsePredictId
      rw [if_pos h1]
    have hlabelsne := splitOnSep_ne_nil '|' identifier
    have hcons : (splitOnSep '|' identifier).headD [] :: (splitOnSep '|' identifier).tail
        = splitOnSep '|' identifier := by
      cases hsp : splitOnSep '|' identifier with
      | nil => exact absurd hsp hlabelsne
      | cons p ps => rfl
    obtain ⟨hprim, hcolon, hadd⟩ :=
      parseDatabase_primary ((splitOnSep '|' identifier).headD [])
        (some (splitOnSep '|' identifier).tail)
    rw [hpp, hprim, hadd]
    refine ⟨?_, ?_, hcolon, ?_, ?_⟩
    · simp only [Option.getD_some]
      rw [hcons, intercalate_splitOnSep]
    · constructor
      · intro hnone; exact absurd hnone (by simp)
      · intro habs; exact absurd h1 habs
    · exact not_mem_of_mem_splitOnSep (headD_mem hlabelsne [])
    · intro a ha
      simp only [Option.getD_some] at ha
      exact not_mem_of_mem_splitOnSep (by rw [← hcons]; exact List.mem_cons_of_mem _ ha)
  · have hpp : parsePredictId identifier = parseDatabase identifier none := by
      unfold parsePredictId
      rw [if_neg h1]
    obtain ⟨hprim, hcolon, hadd⟩ := parseDatabase_primary identifier none
    rw [hpp, hprim, hadd]
    refine ⟨?_, by simp [h1], hcolon, h1, by simp⟩
    simp only [Option.getD_none]
    exact intercalate_single ['|'] identifier

/-- Witness for C3 at the concrete identifier from the specification. -/
theorem C3_predict_identifier_parsing_witness :
    List.intercalate ['|']
        (parsedPrimary (parsePredictId "MESH:D007239|D000068354".data)
          :: ((parsePredictId "MESH:D007239|D000068354".data).additionalLabels.getD []))
      = "MESH:D007239|D000068354".data
    ∧ '|' ∉ "D000068354".data :=
  ⟨(C3_predict_identifier_parsing.1 "MESH:D007239|D000068354".data).1,
    (C3_predict_identifier_parsing.1 "MESH:D007239|D000068354".data).2.2.2.2
      "D000068354".data (by decide)⟩


/-! ### Python dictionaries as association lists -/

/-- Insert-or-replace for one key (Python `d[k] = v`). -/
def assocInsert {α β : Type} [DecidableEq α] (k : α) (v : β) :
    List (α × β) → List (α × β)
  | [] => [(k, v)]
  | (k', v') :: t => if k' = k then (k, v) :: t else (k', v') :: assocInsert k v t

/-- Python `dict(pairs)`: later pairs override earlier ones. -/
def dictOfPairs {α β : Type} [DecidableEq α] (pairs : List (α × β)) : List (α × β) :=
  pairs.foldl (fun d kv => assocInsert kv.1 kv.2 d) []

/-- Python `d.get(k)` (and `k in d` via `isSome`). -/
def assocGet {α β : Type} [DecidableEq α] (k : α) : List (α × β) → Option β
  | [] => none
  | (k', v) :: t => if k' = k then some v else assocGet k t

/-! ### `ExactStringMatchingRetriever` (lines 513-543) -/

/-- The attributes defined by `BioNelDictionary` (lines 434-492): its
methods and the `reader` instance attribute set in `__init__`; neither
`data` nor `to_names` is among them, and the class does not delegate
attribute lookup to its reader. -/
def bioNelDictionaryHasAttr (attr : String) : Bool :=
  attr = "load" || attr = "get_database_names" || attr = "stream" || attr = "reader"

/-- `ExactStringMatchingRetriever.__init__` (lines 519-521):
`self.name_to_id_index = dict(dictionary.data)`.  The lookup of `data` on
the in-src `BioNelDictionary` fails, so construction raises AttributeError
before any mapping is built.  `readerPairs` stands for the (preprocessed
name, identifier) pairs the mapping was evidently meant to be built
from. -/
def exactStringMatchInit (readerPairs : List (String × String)) :
    Except PyError (List (String × String)) :=
  if bioNelDictionaryHasAttr "data" then Except.ok (dictOfPairs readerPairs)
  else Except.error (PyError.attributeError "data")

/-- `ExactStringMatchingRetriever.search` (lines 531-543): for each mention
return `(mention, name_to_id_index.get(mention), 1.0)`; the `top_k`
argument is accepted but unused by this retriever. -/
def exactStringMatchSearch (nameToId : List (String × String))
    (entityMentions : List String) (topK : Nat) :
    List (String × Option String × ℚ) :=
  entityMentions.map (fun em => (em, assocGet em nameToId, (1 : ℚ)))

/-- C4: the exact-string-match claim fails on the code: constructing the
retriever evaluates `dict(dictionary.data)` (line 521), but the in-src
`BioNelDictionary` defines no `data` attribute, so construction raises
AttributeError for every dictionary and the name-to-identifier mapping is
never built.  `search` itself (lines 531-543), applied to the mapping the
constructor was evidently meant to build from the dictionary's (name,
identifier) pairs, does return the claimed candidates: score 1.0 with
identifier c1 for influenza, and an unmatched candidate for flu. -/
theorem C4_exact_string_match_init_raises :
    (∀ readerPairs : List (String × String),
        exactStringMatchInit readerPairs
          = Except.error (PyError.attributeError "data"))
    ∧ exactStringMatchSearch (dictOfPairs [("influenza", "c1")]) ["influenza"] 1
        = [("influenza", some "c1", 1)]
    ∧ exactStringMatchSearch (dictOfPairs [("influenza", "c1")]) ["flu"] 1
        = [("flu", none, 1)] :=
  ⟨fun _ => rfl, by decide, by decide⟩

/-! ### The `predict` retrieval call (lines 896-903) -/

/-- Iterating over a Python `str` yields its characters as one-character
strings. -/
def pythonIterStr (s : String) : List String :=
  s.data.map (fun c => String.mk [c])

/-- The retrieval call made by `predict` at line 903 for one mention with an
exact-string-match retriever: `search(mention_text, top_k)` receives the
single string `mention_text`, not a one-element list, and `search` iterates
over it. -/
def predictRetrieverCall (nameToId : List (String × String)) (mentionText : String)
    (topK : Nat) : List (String × Option String × ℚ) :=
  exactStringMatchSearch nameToId (pythonIterStr mentionText) topK

/-- C10: `predict` passes the mention string itself to `search`, so with an
exact-string-match retriever the candidate loop runs over one candidate per
character of the preprocessed mention rather than one candidate for the
whole mention; concretely the three-character mention flu yields three
per-character unmatched candidates. -/
theorem C10_predict_passes_string_not_list :
    (∀ (nameToId : List (String × String)) (mentionText : String) (k : Nat),
        (predictRetrieverCall nameToId mentionText k).length = mentionText.length
      ∧ predictRetrieverCall nameToId mentionText k
          = mentionText.data.map
              (fun c => (String.mk [c], assocGet (String.mk [c]) nameToId, (1 : ℚ))))
    ∧ predictRetrieverCall (dictOfPairs [("influenza", "c1")]) "flu" 1
        = [("f", none, 1), ("l", none, 1), ("u", none, 1)] := by
  refine ⟨?_, by decide⟩
  intro nameToId mentionText k
  constructor
  · show ((pythonIterStr mentionText).map _).length = mentionText.length
    rw [List.length_map]
    unfold pythonIterStr
    rw [List.length_map]
    rfl
  · show ((pythonIterStr mentionText).map _) = _
    unfold pythonIterStr
    rw [List.map_map]
    rfl

/-! ### `Ab3PPreprocessor` (lines 196-380) -/

/-- Nested abbreviation dictionary: sentence text to (short form, long form)
entries. -/
abbrev AbbrevDict := List (List Char × List (List Char × List Char))

/-- `abbreviation_dict[cur][sf] = lf` on the `defaultdict(dict)`
(line 369). -/
def abbrevDictInsert : AbbrevDict → List Char → List Char → List Char → AbbrevDict
  | [], sent, sf, lf => [(sent, [(sf, lf)])]
  | (s, e) :: t, sent, sf, lf =>
    if s = sent then (s, assocInsert sf lf e) :: t
    else (s, e) :: abbrevDictInsert t sent sf lf

/-- The Ab3P stdout line loop (lines 360-374): a line splitting into exactly
three pipe-separated fields records `(sf.strip().lower(), lf.strip().lower())`
under the current sentence (skipped if there is none); a non-blank line
becomes the current sentence; a blank line clears it. -/
def ab3pParseLines (curSentence : Option (List Char)) (d : AbbrevDict) :
    List (List Char) → AbbrevDict
  | [] => d
  | line :: rest =>
    if (splitOnSep '|' line).length = 3 then
      match curSentence with
      | none => ab3pParseLines none d rest
      | some cur =>
        ab3pParseLines (some cur)
          (abbrevDictInsert d cur
            (pyLower (pyStrip ((splitOnSep '|' line).headD [])))
            (pyLower (pyStrip ((splitOnSep '|' line).tail.headD []))))
          rest
    else if 0 < (pyStrip line).length then
      ab3pParseLines (some line) d rest
    else
      ab3pParseLines none d rest

/-- Parse the whole decoded stdout: split on newlines, then run the line
loop with no current sentence and an empty dictionary (lines 359-374). -/
def ab3pParseOutput (stdout : List Char) : AbbrevDict :=
  ab3pParseLines none [] (splitOnSep (Char.ofNat 10) stdout)

/-- Possible outcomes of `subprocess.run([ab3p_path, temp_file.name],
check=True)` (lines 333-338). -/
inductive Ab3pRunOutcome : Type where
  | toolMissing
  | calledProcessError
  | ran (stdout : List Char)

/-- `Ab3PPreprocessor._build_abbreviation_dict` (lines 306-380): only
`subprocess.CalledProcessError` is caught and logged (lines 339-343), in
which case the dictionary stays empty; a missing executable makes
`subprocess.run` raise `FileNotFoundError`, which no except clause matches,
so it propagates out of `initialize`; any captured stdout — malformed
included — is parsed without raising. -/
def buildAbbreviationDict : Ab3pRunOutcome → Except PyError AbbrevDict
  | .toolMissing => .error .fileNotFoundError
  | .calledProcessError => .ok []
  | .ran stdout => .ok (ab3pParseOutput stdout)

/-- C7: the abbreviation-failure claim. Non-zero exit of the detector is
caught and leaves the map empty, and any (even malformed) detector output
is parsed without raising; but a missing detector executable raises
FileNotFoundError, which the except clause does not catch, so that part of
the claim fails on the code. -/
theorem C7_abbreviation_failure_divergence :
    buildAbbreviationDict .toolMissing = .error .fileNotFoundError
    ∧ buildAbbreviationDict .calledProcessError = .ok []
    ∧ (∀ stdout, ∃ d, buildAbbreviationDict (.ran stdout) = .ok d) :=
  ⟨rfl, rfl, fun stdout => ⟨ab3pParseOutput stdout, rfl⟩⟩


/-- The token loop of `Ab3PPreprocessor.process_mention` (lines 231-242):
preprocess the token with the wrapped preprocessor when configured; when the
owning sentence has an abbreviation entry containing the lowercased token,
append the long form and continue; otherwise append the (possibly
preprocessed) token when it is non-empty.  `abbrevEntry` is
`abbreviation_dict[sentence_text]` when the tokenised sentence text is a
key of the abbreviation dictionary, `none` otherwise. -/
def ab3pParsedTokens (pre : Option (List Char → List Char))
    (abbrevEntry : Option (List (List Char × List Char))) :
    List (List Char) → List (List Char)
  | [] => []
  | token :: rest =>
    let token1 := match pre with
      | some f => f token
      | none => token
    match abbrevEntry with
    | some entry =>
      match assocGet (pyLower token1) entry with
      | some longForm => longForm :: ab3pParsedTokens pre abbrevEntry rest
      | none =>
        if token1.length ≠ 0 then token1 :: ab3pParsedTokens pre abbrevEntry rest
        else ab3pParsedTokens pre abbrevEntry rest
    | none =>
      if token1.length ≠ 0 then token1 :: ab3pParsedTokens pre abbrevEntry rest
      else ab3pParsedTokens pre abbrevEntry rest

/-- `Ab3PPreprocessor.process_mention` (lines 227-244): run the token loop
and rejoin the surviving tokens with single spaces. -/
def ab3pProcessMention (pre : Option (List Char → List Char))
    (abbrevEntry : Option (List (List Char × List Char)))
    (tokens : List (List Char)) : List Char :=
  joinSpace (ab3pParsedTokens pre abbrevEntry tokens)

/-- The per-token behaviour as the specification words it: apply the wrapped
preprocessor's `process_entry` when configured, substitute the long form
when the abbreviation map has an entry whose key equals the lowercased
token, otherwise keep the (possibly preprocessed) token only if non-empty. -/
def ab3pSpecStep (pre : Option (List Char → List Char))
    (abbrevEntry : Option (List (List Char × List Char)))
    (token : List Char) : Option (List Char) :=
  let token1 := match pre with
    | some f => f token
    | none => token
  match (match abbrevEntry with
         | some entry => assocGet (pyLower token1) entry
         | none => none) with
  | some longForm => some longForm
  | none => if token1 = [] then none else some token1

theorem ab3pParsedTokens_eq_filterMap (pre : Option (List Char → List Char))
    (abbrevEntry : Option (List (List Char × List Char)))
    (tokens : List (List Char)) :
    ab3pParsedTokens pre abbrevEntry tokens
      = tokens.filterMap (ab3pSpecStep pre abbrevEntry) := by
  induction tokens with
  | nil => rfl
  | cons token rest ih =>
    rw [List.filterMap_cons, ← ih]
    cases abbrevEntry with
    | none =>
      cases pre with
      | none =>
        simp only [ab3pParsedTokens, ab3pSpecStep]
        cases token with
        | nil => simp
        | cons c cs => simp
      | some f =>
        simp only [ab3pParsedTokens, ab3pSpecStep]
        cases hf : f token with
        | nil => simp [hf]
        | cons c cs => simp [hf]
    | some entry =>
      cases pre with
      | none =>
        simp only [ab3pParsedTokens, ab3pSpecStep]
        cases hget : assocGet (pyLower token) entry with
        | some lf => simp [hget]
        | none =>
          cases token with
          | nil => simp [hget]
          | cons c cs => simp [hget]
      | some f =>
        simp only [ab3pParsedTokens, ab3pSpecStep]
        cases hget : assocGet (pyLower (f token)) entry with
        | some lf => simp [hget]
        | none =>
          cases hf : f token with
          | nil => simp [hget, hf]
          | cons c cs => simp [hget, hf]

/-- A concrete Ab3P stdout for the specification's example sentence: the
tool echoes the sentence and reports the abbreviation with its precision in
a three-field pipe-separated line. -/
def ab3pSampleOutput : List Char :=
  "Respiratory syncytial virus ( RSV ) is common.\n  RSV|Respiratory syncytial virus|0.999\n".data

/-- C5: `process_mention` preprocesses each token with the wrapped
preprocessor, substitutes the long form when the sentence's abbreviation
map has an entry keyed by the lowercased token, otherwise keeps non-empty
tokens, and rejoins with single spaces (phrased as a filterMap over the
specification's per-token step); concretely the mention token RSV in the
example sentence resolves to respiratory syncytial virus. -/
theorem C5_ab3p_process_mention :
    (∀ (pre : Option (List Char → List Char))
       (abbrevEntry : Option (List (List Char × List Char)))
       (tokens : List (List Char)),
        ab3pProcessMention pre abbrevEntry tokens
          = joinSpace (tokens.filterMap (ab3pSpecStep pre abbrevEntry)))
    ∧ ab3pProcessMention (some (basicProcessEntry ⟨true, true⟩))
        (assocGet "Respiratory syncytial virus ( RSV ) is common.".data
          (ab3pParseOutput ab3pSampleOutput))
        ["RSV".data]
      = "respiratory syncytial virus".data := by
  refine ⟨?_, by decide⟩
  intro pre abbrevEntry tokens
  unfold ab3pProcessMention
  rw [ab3pParsedTokens_eq_filterMap]


/-! ### `BiEncoderEntityRetriever.search` (lines 793-853) and the fusion -/

/-- `BiEncoderEntityRetriever.search` (lines 793-853): after the docstring
the entire body is commented out, so the Python function returns `None` on
every call. -/
def biEncoderSearch (entityMentions : List String) (topK : Nat) :
    Option (List (String × String × ℚ)) :=
  none

/-- Add `delta` to the entry of the first occurrence of `sid` (the
commented fusion block updates `distances[index]` for
`index = np.where(ids == sparse_id)[0][0]`, lines 836-837, with
`(sparse_weight * sparse_distance) + distances[index]`). -/
def addToFirst : List (Nat × ℚ) → Nat → ℚ → List (Nat × ℚ)
  | [], _, _ => []
  | (i, d) :: rest, sid, delta =>
    if i = sid then (i, delta + d) :: rest else (i, d) :: addToFirst rest sid delta

/-- Modelled from the commented-out fusion block of `search`
(lines 822-843), which the specification reconstructs as the intended
hybrid semantics: start from the dense candidates; for each sparse
candidate, if its row id is absent append it with score
`sparse_weight * sparse_score`, otherwise accumulate
`sparse_weight * sparse_score` onto the existing entry. -/
def fuseCandidates (dense : List (Nat × ℚ)) (sparse : List (Nat × ℚ))
    (sparseWeight : ℚ) : List (Nat × ℚ) :=
  sparse.foldl
    (fun acc sc =>
      if acc.any (fun p => p.1 = sc.1) then addToFirst acc sc.1 (sparseWeight * sc.2)
      else acc ++ [(sc.1, sparseWeight * sc.2)])
    dense

/-- C1: the hybrid fusion claim fails on the code: `search`'s body after its
docstring is entirely commented out, so it returns None for every input
instead of the fused candidate list its own docstring promises.  The fused
scores documented in the commented block do match the specification's
example: dense ids 3 (0.9) and 7 (0.5) merged with sparse ids 7 (0.8) and
9 (0.6) at weight 0.5 give 3 at 0.9, 7 at 0.9 and 9 at 0.3 before
truncation. -/
theorem C1_biEncoderSearch_returns_none :
    (∀ (entityMentions : List String) (topK : Nat),
        biEncoderSearch entityMentions topK = none)
    ∧ fuseCandidates [(3, 9/10), (7, 1/2)] [(7, 4/5), (9, 3/5)] (1/2)
        = [(3, 9/10), (7, 9/10), (9, 3/10)] := by
  refine ⟨fun _ _ => rfl, ?_⟩
  norm_num [fuseCandidates, addToFirst]

/-! ### `SimilarityMetric` (lines 102-109) and the loader (lines 694-737) -/

/-- The members of the `SimilarityMetric` enum (lines 102-109):
`INNER_PRODUCT` and `COSINE`; there is no member named `COS`. -/
inductive SimilarityMetric : Type where
  | INNER_PRODUCT
  | COSINE
deriving DecidableEq, Repr

/-- Attribute lookup on the `SimilarityMetric` enum class: it succeeds
exactly for the two member names. -/
def similarityMetricMember : String → Option SimilarityMetric
  | "INNER_PRODUCT" => some SimilarityMetric.INNER_PRODUCT
  | "COSINE" => some SimilarityMetric.COSINE
  | _ => none

/-- The normalisation step at lines 734-735:
`if self.similarity_metric == SimilarityMetric.COS: faiss.normalize_L2(embeddings["dense"])`.
Evaluating the right-hand side of the comparison is an attribute lookup of
`COS` on the enum; when it fails, AttributeError is raised before either
branch can run.  `normalizeL2` abstracts `faiss.normalize_L2`
(floating-point row normalisation, outside the rational model). -/
def cosineNormalizeStep {M : Type} (metric : SimilarityMetric)
    (normalizeL2 : M → M) (dense : M) : Except PyError M :=
  match similarityMetricMember "COS" with
  | none => Except.error (PyError.attributeError "COS")
  | some m => Except.ok (if metric = m then normalizeL2 dense else dense)

/-- C8: the cosine-normalisation claim fails on the code: the check at line
734 references `SimilarityMetric.COS`, but the enum's members are
`INNER_PRODUCT` and `COSINE`, so the lookup raises AttributeError on every
call — for the cosine metric included — and the dense rows are never
normalised. -/
theorem C8_cosineNormalizeStep_raises :
    (∀ (M : Type) (metric : SimilarityMetric) (normalizeL2 : M → M) (dense : M),
        cosineNormalizeStep metric normalizeL2 dense
          = Except.error (PyError.attributeError "COS"))
    ∧ similarityMetricMember "COS" = none
    ∧ similarityMetricMember "COSINE" = some SimilarityMetric.COSINE :=
  ⟨fun _ _ _ _ => rfl, rfl, rfl⟩

/-- The persisted embedding bundle: dense matrix and, when hybrid mode was
used at build time, the sparse matrix. -/
structure EmbeddingBundle (M S : Type) : Type where
  dense : M
  sparse : Option S

/-- `BiEncoderEntityRetriever._load_emebddings` (lines 694-737), keeping the
source's spelling: on a cache hit the pickled bundle is loaded; on a miss
the preprocessed names are requested via `self.dictionary.to_names(...)` —
an attribute lookup that fails because `BioNelDictionary` defines no such
method — then dense (and, in hybrid mode, sparse) embeddings would be
computed and the bundle cached; finally both paths run the
`SimilarityMetric.COS` normalisation check of line 734. -/
def loadEmebddings {M S : Type} (cachedBundle : Option (EmbeddingBundle M S))
    (toNames : Unit → List (List Char)) (embedDense : List (List Char) → M)
    (embedSparse : List (List Char) → S) (hybridSearch : Bool)
    (metric : SimilarityMetric) (normalizeL2 : M → M) :
    Except PyError (EmbeddingBundle M S) := do
  let embeddings ← match cachedBundle with
    | some bundle => pure bundle
    | none =>
      if bioNelDictionaryHasAttr "to_names" then
        let names := toNames ()
        pure (EmbeddingBundle.mk (embedDense names)
          (if hybridSearch then some (embedSparse names) else none))
      else
        throw (PyError.attributeError "to_names")
  match cosineNormalizeStep metric normalizeL2 embeddings.dense with
  | Except.error e => throw e
  | Except.ok dense => pure (EmbeddingBundle.mk dense embeddings.sparse)

/-- C9: the cache-miss claim fails on the code: with no cached bundle the
loader's first step calls `self.dictionary.to_names(...)`, which raises
AttributeError because `BioNelDictionary` defines no `to_names`, so the
embeddings are never computed, persisted or returned; a cache hit fares no
better, failing at the `SimilarityMetric.COS` check of line 734. -/
theorem C9_loadEmebddings_raises :
    ∀ (M S : Type) (toNames : Unit → List (List Char))
      (embedDense : List (List Char) → M) (embedSparse : List (List Char) → S)
      (hybridSearch : Bool) (metric : SimilarityMetric) (normalizeL2 : M → M),
      loadEmebddings none toNames embedDense embedSparse hybridSearch metric normalizeL2
          = Except.error (PyError.attributeError "to_names")
      ∧ ∀ bundle,
          loadEmebddings (some bundle) toNames embedDense embedSparse hybridSearch
              metric normalizeL2
            = Except.error (PyError.attributeError "COS") := by
  intro M S toNames embedDense embedSparse hybridSearch metric normalizeL2
  exact ⟨rfl, fun bundle => rfl⟩


/-! ### `search_sparse` two-phase top-k selection (lines 739-778) -/

/-- Ascending sort of one row of scores. -/
def sortScoresAsc (l : List ℚ) : List ℚ :=
  List.insertionSort (fun a b => a ≤ b) l

/-- Descending sort of one row of scores (the effect of
`np.argsort(-topk_score_matrix)` followed by the `indexing_2d` gathers at
lines 773-776). -/
def sortScoresDesc (l : List ℚ) : List ℚ :=
  List.insertionSort (fun a b => b ≤ a) l

/-- The numpy slice `a[-k:]` used at line 770 (`[:, -top_k:]`): for
`k = 0` the slice `[-0:]` is `[0:]`, the whole row; otherwise the last `k`
entries. -/
def lastNegSlice {α : Type} (l : List α) (k : Nat) : List α :=
  if k = 0 then l else l.drop (l.length - k)

/-- The two-phase selection of `search_sparse` (lines 769-776) on one row of
the similarity matrix, at the level of scores.
`np.argpartition(score_matrix, -top_k)` returns an index permutation whose
slice `[-top_k:]` selects `top_k` positions each holding a value at least
as large as every non-selected value; the ascending full sort is one such
permutation, and all valid partitions select the same multiset of scores,
which is all the claim compares.  The selected scores are then sorted
exactly, descending. -/
def searchSparseTopkScores (row : List ℚ) (topK : Nat) : List ℚ :=
  sortScoresDesc (lastNegSlice (sortScoresAsc row) topK)

/-- The reference of the claim, following the specification's words: a
brute-force full descending sort of the same row, truncated to `top_k`. -/
def bruteForceTopkScores (row : List ℚ) (topK : Nat) : List ℚ :=
  (sortScoresDesc row).take topK

/-- Per-mention application over the `[batch × N]` similarity matrix. -/
def searchSparseScores (scoreMatrix : List (List ℚ)) (topK : Nat) : List (List ℚ) :=
  scoreMatrix.map (fun row => searchSparseTopkScores row topK)

/-- Per-mention brute force over the `[batch × N]` similarity matrix. -/
def bruteForceScores (scoreMatrix : List (List ℚ)) (topK : Nat) : List (List ℚ) :=
  scoreMatrix.map (fun row => bruteForceTopkScores row topK)

/-- The argpartition contract: any selection `sel` of row entries whose
values dominate all the remaining entries `rest`, sorted descending, equals
the brute-force descending sort truncated to the selection's size. -/
theorem sortDesc_partition_take (row sel rest : List ℚ)
    (hperm : row.Perm (rest ++ sel))
    (hpart : ∀ a ∈ rest, ∀ b ∈ sel, a ≤ b) :
    sortScoresDesc sel = (sortScoresDesc row).take sel.length := by
  haveI hTot : IsTotal ℚ (fun a b : ℚ => b ≤ a) := ⟨fun a b => le_total b a⟩
  haveI hTrans : IsTrans ℚ (fun a b : ℚ => b ≤ a) := ⟨fun a b c h1 h2 => le_trans h2 h1⟩
  haveI hAnti : IsAntisymm ℚ (fun a b : ℚ => b ≤ a) := ⟨fun a b h1 h2 => le_antisymm h2 h1⟩
  unfold sortScoresDesc
  have hsel := List.sorted_insertionSort (fun a b : ℚ => b ≤ a) sel
  have hrest := List.sorted_insertionSort (fun a b : ℚ => b ≤ a) rest
  have hcross : ∀ a ∈ List.insertionSort (fun a b : ℚ => b ≤ a) sel,
      ∀ b ∈ List.insertionSort (fun a b : ℚ => b ≤ a) rest, b ≤ a := by
    intro a ha b hb
    exact hpart b ((List.perm_insertionSort _ rest).mem_iff.mp hb)
      a ((List.perm_insertionSort _ sel).mem_iff.mp ha)
  have happsorted : List.Sorted (fun a b : ℚ => b ≤ a)
      (List.insertionSort (fun a b : ℚ => b ≤ a) sel
        ++ List.insertionSort (fun a b : ℚ => b ≤ a) rest) :=
    List.pairwise_append.mpr ⟨hsel, hrest, hcross⟩
  have hperm2 : (List.insertionSort (fun a b : ℚ => b ≤ a) row).Perm
      (List.insertionSort (fun a b : ℚ => b ≤ a) sel
        ++ List.insertionSort (fun a b : ℚ => b ≤ a) rest) := by
    refine (List.perm_insertionSort _ row).trans (hperm.trans ?_)
    exact List.perm_append_comm.trans
      ((List.perm_insertionSort _ sel).symm.append (List.perm_insertionSort _ rest).symm)
  have heq : List.insertionSort (fun a b : ℚ => b ≤ a) row
      = List.insertionSort (fun a b : ℚ => b ≤ a) sel
        ++ List.insertionSort (fun a b : ℚ => b ≤ a) rest :=
    List.eq_of_perm_of_sorted hperm2
      (List.sorted_insertionSort (fun a b : ℚ => b ≤ a) row) happsorted
  rw [heq, ← List.length_insertionSort (fun a b : ℚ => b ≤ a) sel, List.take_left]

theorem searchSparseTopkScores_eq_bruteforce (row : List ℚ) (topK : Nat)
    (h1 : 1 ≤ topK) (h2 : topK ≤ row.length) :
    searchSparseTopkScores row topK = bruteForceTopkScores row topK := by
  unfold searchSparseTopkScores lastNegSlice
  rw [if_neg (by omega)]
  have hslen : (sortScoresAsc row).length = row.length :=
    List.length_insertionSort _ row
  have hsorted : List.Sorted (fun a b : ℚ => a ≤ b) (sortScoresAsc row) :=
    List.sorted_insertionSort _ row
  set m := (sortScoresAsc row).length - topK with hm
  have hsplit := List.take_append_drop m (sortScoresAsc row)
  have hperm : row.Perm ((sortScoresAsc row).take m ++ (sortScoresAsc row).drop m) := by
    rw [hsplit]
    exact (List.perm_insertionSort _ row).symm
  have hpart : ∀ a ∈ (sortScoresAsc row).take m,
      ∀ b ∈ (sortScoresAsc row).drop m, a ≤ b := by
    have hs2 : List.Sorted (fun a b : ℚ => a ≤ b)
        ((sortScoresAsc row).take m ++ (sortScoresAsc row).drop m) := by
      rw [hsplit]
      exact hsorted
    exact (List.pairwise_append.mp hs2).2.2
  have hlen : ((sortScoresAsc row).drop m).length = topK := by
    rw [List.length_drop]
    omega
  have hmain := sortDesc_partition_take row ((sortScoresAsc row).drop m)
    ((sortScoresAsc row).take m) hperm hpart
  rw [hlen] at hmain
  exact hmain

/-- C2 (amended): for every `[batch × N]` similarity matrix and every
`top_k` with `1 ≤ top_k ≤ N`, the two-phase selection of `search_sparse`
(partial selection of the top-k columns per row, then an exact descending
sort of only those candidates) returns per mention exactly the scores a
brute-force full descending sort would return.  (At `top_k = 0` the code's
`[:, -top_k:]` slice selects the whole row instead of nothing, so the
unamended claim fails; see the counterexample.) -/
theorem C2_searchSparse_topk_eq_bruteforce (scoreMatrix : List (List ℚ)) (topK : Nat)
    (h1 : 1 ≤ topK) (h2 : ∀ row ∈ scoreMatrix, topK ≤ row.length) :
    searchSparseScores scoreMatrix topK = bruteForceScores scoreMatrix topK := by
  unfold searchSparseScores bruteForceScores
  apply List.map_congr_left
  intro row hrow
  exact searchSparseTopkScores_eq_bruteforce row topK h1 (h2 row hrow)

/-- Witness for the amended C2 on a concrete two-row matrix at `top_k = 2`. -/
theorem C2_searchSparse_topk_eq_bruteforce_witness :
    (1 ≤ 2 ∧ ∀ row ∈ [[(3 : ℚ), 1, 2], [(5 : ℚ), 4, 6]], 2 ≤ row.length)
    ∧ searchSparseScores [[(3 : ℚ), 1, 2], [(5 : ℚ), 4, 6]] 2
        = bruteForceScores [[(3 : ℚ), 1, 2], [(5 : ℚ), 4, 6]] 2 :=
  ⟨⟨by decide, by decide⟩,
    C2_searchSparse_topk_eq_bruteforce [[(3 : ℚ), 1, 2], [(5 : ℚ), 4, 6]] 2
      (by decide) (by decide)⟩

/-- Counterexample to C2 as stated (quantifying over every `top_k ≤ N`): at
`top_k = 0` (which satisfies `top_k ≤ N` for the row `[1, 2]` of length 2),
the code's `[:, -0:]` slice selects all `N` columns, so `search_sparse`
returns the whole row sorted descending while the brute-force top-0 is
empty. -/
theorem C2_searchSparse_topk_zero_counterexample :
    (0 : Nat) ≤ 2
    ∧ (∀ row ∈ [[(1 : ℚ), 2]], (0 : Nat) ≤ row.length)
    ∧ searchSparseScores [[(1 : ℚ), 2]] 0 = [[(2 : ℚ), 1]]
    ∧ bruteForceScores [[(1 : ℚ), 2]] 0 = [[]]
    ∧ searchSparseScores [[(1 : ℚ), 2]] 0 ≠ bruteForceScores [[(1 : ℚ), 2]] 0 := by
  refine ⟨by decide, by decide, by decide, by decide, by decide⟩

end BioNel
